import Mathlib

/-
  Verification of the VaultbornStaking confidential staking ledger
  (src/contracts/VaultbornStaking.sol).

  The contract is shallowly embedded as a pure state machine.  Each external
  entry point is a function from a pre-state and its arguments to
  `Except Err (post-state, result)`.  An `Except.error` models an EVM revert:
  the transactional wrappers (`execStake`, `execRedeem`, `execFulfill`, ...)
  return the unchanged pre-state in that case, mirroring the fact that a
  revert rolls back every state write of the call.

  The inherited OpenZeppelin ERC721Enumerable behaviour (mint, burn, owner
  lookup, authorization, per-owner enumeration with swap-and-pop removal,
  transfer and approval entry points) is embedded explicitly, since the
  contract's `stake`, `redeem` and `tokensOf` build on it.

  The external FHE / decryption-oracle collaborators (FHE.asEuint256,
  FHE.isInitialized, FHE.requestDecryption, FHE.checkSignatures) are modelled
  abstractly, as the spec prescribes for out-of-scope collaborators: a
  ciphertext handle is an identifier bound to its plaintext in an environment,
  a decryption request records the submitted handles, and a proof verifies
  precisely when the cleartext equals the true decryption of the submitted
  ciphertexts and the proof is the genuine KMS proof for that request.
-/

namespace Vaultborn

/-- Account addresses; 0 plays the role of the zero address. -/
abbrev Address := Nat

/-- Ciphertext handles (euint256 values); 0 is the uninitialized handle. -/
abbrev Handle := Nat

/-- Revert reasons of the contract and of the inherited / collaborating code,
named after the error taxonomy of the specification. -/
inductive Err where
  | ZeroAmount
  | StakeNotFound
  | InvalidCertificate
  | Unauthorized
  | RedemptionAlreadyPending
  | UnknownRequest
  | InvalidProof
  | TransferFailed
  | InvalidOracle
  | InvalidReceiver
  | AlreadyMinted
  | IncorrectOwner
  | InvalidApprover
  | InvalidOperator
  | InvalidOwner
  | OutOfBoundsIndex
deriving DecidableEq, Repr

/-- The PendingWithdrawal struct of the contract. -/
structure PendingWithdrawal where
  recipient : Address
  tokenId : Nat
  existsFlag : Bool
deriving DecidableEq, Repr

/-- Default mapping value for `_pendingByRequest`; also the value after
`delete`. -/
def PendingWithdrawal.empty : PendingWithdrawal :=
  { recipient := 0, tokenId := 0, existsFlag := false }

/-- Mutable state of the external FHE coprocessor / decryption oracle:
fresh-handle allocation, the plaintext bound to each allocated handle, and
the ciphertexts submitted with each decryption request. -/
structure FheState where
  nextHandle : Nat
  plainOf : Handle → Nat
  nextRequestId : Nat
  requestCiphertexts : Nat → List Handle

/-- Immutable deployment environment: the constructor arguments of the
contract together with the oracle's genuine KMS proof for each request. -/
structure Env where
  decryptionOracle : Address
  enforceOracleCheck : Bool
  kmsProof : Nat → Nat

/-- FHE.asEuint256: allocate a fresh (hence nonzero, given a positive
counter) handle bound to the given plaintext.  FHE.allowThis / FHE.allow
only grant view capabilities and return the same handle, so they are
identities here. -/
def FHE.asEuint256 (f : FheState) (v : Nat) : FheState × Handle :=
  let h := f.nextHandle
  ({ f with
      nextHandle := h + 1
      plainOf := fun x => if x = h then v else f.plainOf x }, h)

/-- FHE.isInitialized: a handle is initialized iff it is nonzero. -/
def FHE.isInitialized (h : Handle) : Bool := h != 0

/-- FHE.requestDecryption: record the submitted ciphertext handles under a
fresh request identifier and return that identifier. -/
def FHE.requestDecryption (f : FheState) (cts : List Handle) : FheState × Nat :=
  let rid := f.nextRequestId
  ({ f with
      nextRequestId := rid + 1
      requestCiphertexts := fun x => if x = rid then cts else f.requestCiphertexts x }, rid)

/-- The true decryption of the ciphertexts submitted for a request, decoded
as the contract decodes it (abi.decode of the first uint256). -/
def FheState.decryptRequest (f : FheState) (rid : Nat) : Nat :=
  ((f.requestCiphertexts rid).map f.plainOf).headD 0

/-- Modelled from the spec: FHE.checkSignatures is the external verifier
capability (the oracle's KMS signature check, out of scope for the ledger).
A cleartext / proof pair verifies for a request precisely when the cleartext
is the true decryption of the ciphertexts submitted for that request and the
proof is the genuine KMS proof issued for it; any forged or mismatched pair
fails. -/
def FHE.checkSignatures (env : Env) (f : FheState) (rid ct pf : Nat) : Bool :=
  ct == f.decryptRequest rid && pf == env.kmsProof rid

/-- Full contract state: the contract's own storage variables together with
the inherited ERC721 / ERC721Enumerable storage and the FHE environment.
`mintedIds` is a specification-only history variable recording every id ever
minted, in mint order; no operation reads it. -/
structure State where
  nextTokenId : Nat
  encryptedStakes : Nat → Handle
  pendingByRequest : Nat → PendingWithdrawal
  requestByToken : Nat → Nat
  isTokenPending : Nat → Bool
  owners : Nat → Address
  tokenApprovals : Nat → Address
  operatorApprovals : Address → Address → Bool
  balances : Address → Nat
  ownedTokens : Address → List Nat
  mintedIds : List Nat
  fhe : FheState

/-- State of a freshly deployed contract. -/
def initState : State where
  nextTokenId := 1
  encryptedStakes := fun _ => 0
  pendingByRequest := fun _ => PendingWithdrawal.empty
  requestByToken := fun _ => 0
  isTokenPending := fun _ => false
  owners := fun _ => 0
  tokenApprovals := fun _ => 0
  operatorApprovals := fun _ _ => false
  balances := fun _ => 0
  ownedTokens := fun _ => []
  mintedIds := []
  fhe :=
    { nextHandle := 1
      plainOf := fun _ => 0
      nextRequestId := 1
      requestCiphertexts := fun _ => [] }

/-- ERC721 isApprovedForAll. -/
def State.isApprovedForAll (s : State) (owner operator : Address) : Bool :=
  s.operatorApprovals owner operator

/-- ERC721 _isAuthorized: the spender is nonzero and is the owner, an
approved operator of the owner, or the token-approved address. -/
def State.isAuthorized (s : State) (owner spender tokenId : Nat) : Bool :=
  spender != 0 &&
    (owner == spender || s.isApprovedForAll owner spender || s.tokenApprovals tokenId == spender)

/-- State change of ERC721Enumerable minting (after the checks of _safeMint):
record the owner, bump its balance, append the id to its enumeration list.
The ghost `mintedIds` history is extended as well. -/
def mintUpdate (s : State) (toAddr tid : Nat) : State :=
  { s with
    owners := fun t => if t = tid then toAddr else s.owners t
    balances := fun a => if a = toAddr then s.balances a + 1 else s.balances a
    ownedTokens := fun a => if a = toAddr then s.ownedTokens a ++ [tid] else s.ownedTokens a
    mintedIds := s.mintedIds ++ [tid] }

/-- ERC721Enumerable's _removeTokenFromOwnerEnumeration on the stored index
map: overwrite the slot of the first occurrence of the removed id. -/
def setFirst : List Nat → Nat → Nat → List Nat
  | [], _, _ => []
  | x :: xs, tid, v => if x = tid then v :: xs else x :: setFirst xs tid v

/-- ERC721Enumerable swap-and-pop removal: the last id of the owner's list is
moved into the removed id's slot and the last slot is deleted. -/
def removeOwned (l : List Nat) (tid : Nat) : List Nat :=
  (setFirst l tid (l.getLastD 0)).dropLast

/-- State change of ERC721Enumerable burning (after the existence check of
_burn): clear owner and token approval, decrement the balance, swap-and-pop
the id out of the previous owner's enumeration list. -/
def burnUpdate (s : State) (tid : Nat) : State :=
  let prev := s.owners tid
  { s with
    owners := fun t => if t = tid then 0 else s.owners t
    tokenApprovals := fun t => if t = tid then 0 else s.tokenApprovals t
    balances := fun a => if a = prev then s.balances a - 1 else s.balances a
    ownedTokens := fun a => if a = prev then removeOwned (s.ownedTokens a) tid else s.ownedTokens a }

/-- State change of an ERC721 transfer between nonzero accounts: reassign the
owner, clear the token approval, move the balance, and (when the owner
actually changes) swap-and-pop the id out of the old owner's enumeration
list and append it to the new owner's. -/
def transferUpdate (s : State) (toAddr tid : Nat) : State :=
  let prev := s.owners tid
  { s with
    owners := fun t => if t = tid then toAddr else s.owners t
    tokenApprovals := fun t => if t = tid then 0 else s.tokenApprovals t
    balances := fun a =>
      let b := if a = prev then s.balances a - 1 else s.balances a
      if a = toAddr then b + 1 else b
    ownedTokens := fun a =>
      if prev = toAddr then s.ownedTokens a
      else if a = prev then removeOwned (s.ownedTokens a) tid
      else if a = toAddr then s.ownedTokens a ++ [tid]
      else s.ownedTokens a }

/-- Post-state of a successful stake() call with the given sender and
msg.value: bump _nextTokenId, mint the certificate, create the encrypted
value cell for msg.value, bind it to the new id, and reset the pending
bookkeeping of the new id. -/
def stakeResultState (s : State) (sender msgValue : Nat) : State :=
  let tokenId := s.nextTokenId
  let s0 := { s with nextTokenId := tokenId + 1 }
  let s1 := mintUpdate s0 sender tokenId
  let p := FHE.asEuint256 s1.fhe msgValue
  { s1 with
    fhe := p.1
    encryptedStakes := fun t => if t = tokenId then p.2 else s1.encryptedStakes t
    requestByToken := fun t => if t = tokenId then 0 else s1.requestByToken t
    isTokenPending := fun t => if t = tokenId then false else s1.isTokenPending t }

/-- stake(): requires a positive msg.value, then mints certificate
_nextTokenId to the sender (the _safeMint checks: nonzero receiver, id not
already minted) and records the encrypted stake.  Returns the new id. -/
def stake (s : State) (sender msgValue : Nat) : Except Err (State × Nat) :=
  if msgValue = 0 then .error .ZeroAmount
  else if sender = 0 then .error .InvalidReceiver
  else if s.owners s.nextTokenId ≠ 0 then .error .AlreadyMinted
  else .ok (stakeResultState s sender msgValue, s.nextTokenId)

/-- getEncryptedStake(): the stored handle, required to be initialized. -/
def getEncryptedStake (s : State) (tokenId : Nat) : Except Err Handle :=
  if FHE.isInitialized (s.encryptedStakes tokenId) = false then .error .StakeNotFound
  else .ok (s.encryptedStakes tokenId)

/-- pendingRequestForToken(): the active request id, or zero when none. -/
def pendingRequestForToken (s : State) (tokenId : Nat) : Nat :=
  if s.isTokenPending tokenId = false then 0 else s.requestByToken tokenId

/-- ERC721 balanceOf, which rejects the zero address. -/
def State.balanceOf (s : State) (account : Address) : Except Err Nat :=
  if account = 0 then .error .InvalidOwner else .ok (s.balances account)

/-- ERC721Enumerable tokenOfOwnerByIndex: bounds-checked read of the owner's
enumeration slot. -/
def State.tokenOfOwnerByIndex (s : State) (owner i : Nat) : Except Err Nat :=
  match s.balanceOf owner with
  | .error e => .error e
  | .ok b =>
    if i < b then .ok ((s.ownedTokens owner).getD i 0) else .error .OutOfBoundsIndex

/-- The loop body of tokensOf(): read the owner's slots at the given
indices. -/
def mapTokens (s : State) (account : Address) : List Nat → Except Err (List Nat)
  | [] => .ok []
  | i :: is =>
    match s.tokenOfOwnerByIndex account i with
    | .error e => .error e
    | .ok t =>
      match mapTokens s account is with
      | .error e => .error e
      | .ok ts => .ok (t :: ts)

/-- tokensOf(): read balanceOf(account) slots 0, 1, ... of the owner's
enumeration. -/
def State.tokensOf (s : State) (account : Address) : Except Err (List Nat) :=
  match s.balanceOf account with
  | .error e => .error e
  | .ok balance => mapTokens s account (List.range balance)

/-- Post-state of a successful redeem(tokenId) call: clear the encrypted
stake, burn the certificate, submit the exported ciphertext for decryption,
and register the Pending Withdrawal Record (beneficiary = owner at call
time), the request index and the pending flag. -/
def redeemResultState (s : State) (tokenId : Nat) : State :=
  let owner := s.owners tokenId
  let encryptedAmount := s.encryptedStakes tokenId
  let s1 := { s with encryptedStakes := fun t => if t = tokenId then 0 else s.encryptedStakes t }
  let s2 := burnUpdate s1 tokenId
  let p := FHE.requestDecryption s2.fhe [encryptedAmount]
  { s2 with
    fhe := p.1
    pendingByRequest := fun r =>
      if r = p.2 then { recipient := owner, tokenId := tokenId, existsFlag := true }
      else s2.pendingByRequest r
    requestByToken := fun t => if t = tokenId then p.2 else s2.requestByToken t
    isTokenPending := fun t => if t = tokenId then true else s2.isTokenPending t }

/-- redeem(): requires a live certificate, an authorized caller, no pending
request for the id, and an initialized stake; then performs
`redeemResultState` and returns the fresh request id. -/
def redeem (s : State) (sender tokenId : Nat) : Except Err (State × Nat) :=
  let owner := s.owners tokenId
  if owner = 0 then .error .InvalidCertificate
  else if s.isAuthorized owner sender tokenId = false then .error .Unauthorized
  else if s.isTokenPending tokenId = true then .error .RedemptionAlreadyPending
  else if FHE.isInitialized (s.encryptedStakes tokenId) = false then .error .StakeNotFound
  else .ok (redeemResultState s tokenId, s.fhe.nextRequestId)

/-- The state written by onDecryptionFulfilled before it attempts the value
transfer: the Pending Withdrawal Record is deleted and the certificate's
pending flag and request index are cleared. -/
def fulfillClearState (s : State) (requestId : Nat) (pending : PendingWithdrawal) : State :=
  { s with
    pendingByRequest := fun r =>
      if r = requestId then PendingWithdrawal.empty else s.pendingByRequest r
    isTokenPending := fun t => if t = pending.tokenId then false else s.isTokenPending t
    requestByToken := fun t => if t = pending.tokenId then 0 else s.requestByToken t }

/-- onDecryptionFulfilled(): optional strict-sender check, existence of the
Pending Withdrawal Record, proof verification, then record deletion followed
by the value transfer.  `transferOk` is the external settlement
collaborator's disposition for this call: it decides whether the low-level
value transfer to a recipient succeeds.  A failed transfer reverts the call
(error `TransferFailed`).  On success the performed transfer
(recipient, amount) is returned alongside the post-state. -/
def onDecryptionFulfilled (env : Env) (transferOk : Address → Nat → Bool) (s : State)
    (sender requestId cleartexts decryptionProof : Nat) :
    Except Err (State × Address × Nat) :=
  if env.enforceOracleCheck = true ∧ sender ≠ env.decryptionOracle then .error .InvalidOracle
  else
    let pending := s.pendingByRequest requestId
    if pending.existsFlag = false then .error .UnknownRequest
    else if FHE.checkSignatures env s.fhe requestId cleartexts decryptionProof = false then
      .error .InvalidProof
    else
      let amount := cleartexts
      let s1 := fulfillClearState s requestId pending
      if transferOk pending.recipient amount = false then .error .TransferFailed
      else .ok (s1, pending.recipient, amount)

/-- ERC721 approve entry point. -/
def approve (s : State) (sender toAddr tokenId : Nat) : Except Err State :=
  let owner := s.owners tokenId
  if owner = 0 then .error .InvalidCertificate
  else if sender ≠ 0 ∧ owner ≠ sender ∧ s.isApprovedForAll owner sender = false then
    .error .InvalidApprover
  else .ok { s with tokenApprovals := fun t => if t = tokenId then toAddr else s.tokenApprovals t }

/-- ERC721 setApprovalForAll entry point. -/
def setApprovalForAll (s : State) (sender operator : Nat) (approved : Bool) :
    Except Err State :=
  if operator = 0 then .error .InvalidOperator
  else .ok { s with
    operatorApprovals := fun a o =>
      if a = sender ∧ o = operator then approved else s.operatorApprovals a o }

/-- ERC721 transferFrom entry point. -/
def transferFrom (s : State) (sender fro toAddr tokenId : Nat) : Except Err State :=
  if toAddr = 0 then .error .InvalidReceiver
  else
    let prev := s.owners tokenId
    if s.isAuthorized prev sender tokenId = false then
      if prev = 0 then .error .InvalidCertificate else .error .Unauthorized
    else if prev ≠ fro then .error .IncorrectOwner
    else .ok (transferUpdate s toAddr tokenId)

/-- Transactional semantics of stake(): a revert leaves the state as it
was. -/
def execStake (s : State) (sender msgValue : Nat) : State × Except Err Nat :=
  match stake s sender msgValue with
  | .ok r => (r.1, .ok r.2)
  | .error e => (s, .error e)

/-- Transactional semantics of redeem(). -/
def execRedeem (s : State) (sender tokenId : Nat) : State × Except Err Nat :=
  match redeem s sender tokenId with
  | .ok r => (r.1, .ok r.2)
  | .error e => (s, .error e)

/-- Transactional semantics of onDecryptionFulfilled(): a revert (including
a failed value transfer) leaves the state as it was and performs no
transfer; a success reports the single transfer performed. -/
def execFulfill (env : Env) (transferOk : Address → Nat → Bool) (s : State)
    (sender requestId cleartexts decryptionProof : Nat) :
    State × Except Err (Address × Nat) :=
  match onDecryptionFulfilled env transferOk s sender requestId cleartexts decryptionProof with
  | .ok r => (r.1, .ok r.2)
  | .error e => (s, .error e)

/-- One successful externally-triggered transition of the deployed contract.
Senders are nonzero, as guaranteed by the execution environment.  Reverting
calls do not change the state and hence need no transition. -/
inductive Step (env : Env) : State → State → Prop where
  | stakeOp : ∀ s sender v s' tid, sender ≠ 0 →
      stake s sender v = .ok (s', tid) → Step env s s'
  | redeemOp : ∀ s sender tid s' rid, sender ≠ 0 →
      redeem s sender tid = .ok (s', rid) → Step env s s'
  | fulfillOp : ∀ tOk s sender rid ct pf s' tr, sender ≠ 0 →
      onDecryptionFulfilled env tOk s sender rid ct pf = .ok (s', tr) → Step env s s'
  | approveOp : ∀ s sender toAddr tid s', sender ≠ 0 →
      approve s sender toAddr tid = .ok s' → Step env s s'
  | setApprovalOp : ∀ s sender operator b s', sender ≠ 0 →
      setApprovalForAll s sender operator b = .ok s' → Step env s s'
  | transferOp : ∀ s sender fro toAddr tid s', sender ≠ 0 →
      transferFrom s sender fro toAddr tid = .ok s' → Step env s s'

/-- States of the deployed contract reachable from deployment. -/
def Reachable (env : Env) (s : State) : Prop :=
  Relation.ReflTransGen (Step env) initState s

/-- Transactional wrapper for setApprovalForAll, returning the pre-state on a
revert. -/
def execSetApprovalForAll (s : State) (sender op : Nat) (b : Bool) : State :=
  match setApprovalForAll s sender op b with
  | .ok s' => s'
  | .error _ => s

/-! Concrete test-fixture states used to instantiate the theorems: a
development-mode deployment (strict sender check off, as in the repository's
local test deployment), account 1 stakes 5 wei (certificate 1), account 2
stakes 7 wei (certificate 2), both redeem (requests 1 and 2), and request 1
is fulfilled. -/

def envW : Env :=
  { decryptionOracle := 9, enforceOracleCheck := false, kmsProof := fun _ => 0 }

def tOkW : Address → Nat → Bool := fun _ _ => true

def tOkFailW : Address → Nat → Bool := fun _ _ => false

def W1 : State := (execStake initState 1 5).1

def W2 : State := (execStake W1 2 7).1

def W3 : State := (execRedeem W2 1 1).1

def W4 : State := (execRedeem W3 2 2).1

def W5 : State := (execFulfill envW tOkW W4 9 1 5 0).1

/-- Fixture for the enumeration-order scenario: account 1 stakes three times
(certificates 1, 2, 3) and then redeems certificate 1. -/
def V2 : State := (execStake W1 1 6).1

def V3 : State := (execStake V2 1 7).1

def V4 : State := (execRedeem V3 1 1).1

/-- Fixture for the approved-operator scenario: account 1 (owner of
certificate 1) approves account 3 as operator, and account 3 redeems. -/
def U2 : State := execSetApprovalForAll W1 1 3 true

def U3 : State := (execRedeem U2 3 1).1

/-! Projection lemmas: pointwise descriptions of the post-states of the
three mutating ledger operations. -/

@[simp] lemma stakeResultState_nextTokenId (s : State) (w v : Nat) :
    (stakeResultState s w v).nextTokenId = s.nextTokenId + 1 := rfl

@[simp] lemma stakeResultState_owners (s : State) (w v t : Nat) :
    (stakeResultState s w v).owners t = if t = s.nextTokenId then w else s.owners t := rfl

@[simp] lemma stakeResultState_balances (s : State) (w v a : Nat) :
    (stakeResultState s w v).balances a =
      if a = w then s.balances a + 1 else s.balances a := rfl

@[simp] lemma stakeResultState_ownedTokens (s : State) (w v a : Nat) :
    (stakeResultState s w v).ownedTokens a =
      if a = w then s.ownedTokens a ++ [s.nextTokenId] else s.ownedTokens a := rfl

@[simp] lemma stakeResultState_mintedIds (s : State) (w v : Nat) :
    (stakeResultState s w v).mintedIds = s.mintedIds ++ [s.nextTokenId] := rfl

@[simp] lemma stakeResultState_encryptedStakes (s : State) (w v t : Nat) :
    (stakeResultState s w v).encryptedStakes t =
      if t = s.nextTokenId then s.fhe.nextHandle else s.encryptedStakes t := rfl

@[simp] lemma stakeResultState_requestByToken (s : State) (w v t : Nat) :
    (stakeResultState s w v).requestByToken t =
      if t = s.nextTokenId then 0 else s.requestByToken t := rfl

@[simp] lemma stakeResultState_isTokenPending (s : State) (w v t : Nat) :
    (stakeResultState s w v).isTokenPending t =
      if t = s.nextTokenId then false else s.isTokenPending t := rfl

@[simp] lemma stakeResultState_pendingByRequest (s : State) (w v : Nat) :
    (stakeResultState s w v).pendingByRequest = s.pendingByRequest := rfl

@[simp] lemma stakeResultState_tokenApprovals (s : State) (w v : Nat) :
    (stakeResultState s w v).tokenApprovals = s.tokenApprovals := rfl

@[simp] lemma stakeResultState_operatorApprovals (s : State) (w v : Nat) :
    (stakeResultState s w v).operatorApprovals = s.operatorApprovals := rfl

@[simp] lemma stakeResultState_fhe_nextHandle (s : State) (w v : Nat) :
    (stakeResultState s w v).fhe.nextHandle = s.fhe.nextHandle + 1 := rfl

@[simp] lemma stakeResultState_fhe_plainOf (s : State) (w v x : Nat) :
    (stakeResultState s w v).fhe.plainOf x =
      if x = s.fhe.nextHandle then v else s.fhe.plainOf x := rfl

@[simp] lemma stakeResultState_fhe_nextRequestId (s : State) (w v : Nat) :
    (stakeResultState s w v).fhe.nextRequestId = s.fhe.nextRequestId := rfl

@[simp] lemma stakeResultState_fhe_requestCiphertexts (s : State) (w v : Nat) :
    (stakeResultState s w v).fhe.requestCiphertexts = s.fhe.requestCiphertexts := rfl

@[simp] lemma redeemResultState_nextTokenId (s : State) (tid : Nat) :
    (redeemResultState s tid).nextTokenId = s.nextTokenId := rfl

@[simp] lemma redeemResultState_owners (s : State) (tid t : Nat) :
    (redeemResultState s tid).owners t = if t = tid then 0 else s.owners t := rfl

@[simp] lemma redeemResultState_tokenApprovals (s : State) (tid t : Nat) :
    (redeemResultState s tid).tokenApprovals t =
      if t = tid then 0 else s.tokenApprovals t := rfl

@[simp] lemma redeemResultState_balances (s : State) (tid a : Nat) :
    (redeemResultState s tid).balances a =
      if a = s.owners tid then s.balances a - 1 else s.balances a := rfl

@[simp] lemma redeemResultState_ownedTokens (s : State) (tid a : Nat) :
    (redeemResultState s tid).ownedTokens a =
      if a = s.owners tid then removeOwned (s.ownedTokens a) tid else s.ownedTokens a := rfl

@[simp] lemma redeemResultState_mintedIds (s : State) (tid : Nat) :
    (redeemResultState s tid).mintedIds = s.mintedIds := rfl

@[simp] lemma redeemResultState_encryptedStakes (s : State) (tid t : Nat) :
    (redeemResultState s tid).encryptedStakes t =
      if t = tid then 0 else s.encryptedStakes t := rfl

@[simp] lemma redeemResultState_pendingByRequest (s : State) (tid r : Nat) :
    (redeemResultState s tid).pendingByRequest r =
      if r = s.fhe.nextRequestId then
        { recipient := s.owners tid, tokenId := tid, existsFlag := true }
      else s.pendingByRequest r := rfl

@[simp] lemma redeemResultState_requestByToken (s : State) (tid t : Nat) :
    (redeemResultState s tid).requestByToken t =
      if t = tid then s.fhe.nextRequestId else s.requestByToken t := rfl

@[simp] lemma redeemResultState_isTokenPending (s : State) (tid t : Nat) :
    (redeemResultState s tid).isTokenPending t =
      if t = tid then true else s.isTokenPending t := rfl

@[simp] lemma redeemResultState_operatorApprovals (s : State) (tid : Nat) :
    (redeemResultState s tid).operatorApprovals = s.operatorApprovals := rfl

@[simp] lemma redeemResultState_fhe_nextHandle (s : State) (tid : Nat) :
    (redeemResultState s tid).fhe.nextHandle = s.fhe.nextHandle := rfl

@[simp] lemma redeemResultState_fhe_plainOf (s : State) (tid : Nat) :
    (redeemResultState s tid).fhe.plainOf = s.fhe.plainOf := rfl

@[simp] lemma redeemResultState_fhe_nextRequestId (s : State) (tid : Nat) :
    (redeemResultState s tid).fhe.nextRequestId = s.fhe.nextRequestId + 1 := rfl

@[simp] lemma redeemResultState_fhe_requestCiphertexts (s : State) (tid r : Nat) :
    (redeemResultState s tid).fhe.requestCiphertexts r =
      if r = s.fhe.nextRequestId then [s.encryptedStakes tid]
      else s.fhe.requestCiphertexts r := rfl

@[simp] lemma fulfillClearState_pendingByRequest (s : State) (rid : Nat)
    (p : PendingWithdrawal) (r : Nat) :
    (fulfillClearState s rid p).pendingByRequest r =
      if r = rid then PendingWithdrawal.empty else s.pendingByRequest r := rfl

@[simp] lemma fulfillClearState_isTokenPending (s : State) (rid : Nat)
    (p : PendingWithdrawal) (t : Nat) :
    (fulfillClearState s rid p).isTokenPending t =
      if t = p.tokenId then false else s.isTokenPending t := rfl

@[simp] lemma fulfillClearState_requestByToken (s : State) (rid : Nat)
    (p : PendingWithdrawal) (t : Nat) :
    (fulfillClearState s rid p).requestByToken t =
      if t = p.tokenId then 0 else s.requestByToken t := rfl

@[simp] lemma fulfillClearState_owners (s : State) (rid : Nat) (p : PendingWithdrawal) :
    (fulfillClearState s rid p).owners = s.owners := rfl

@[simp] lemma fulfillClearState_encryptedStakes (s : State) (rid : Nat)
    (p : PendingWithdrawal) :
    (fulfillClearState s rid p).encryptedStakes = s.encryptedStakes := rfl

@[simp] lemma fulfillClearState_nextTokenId (s : State) (rid : Nat) (p : PendingWithdrawal) :
    (fulfillClearState s rid p).nextTokenId = s.nextTokenId := rfl

@[simp] lemma fulfillClearState_balances (s : State) (rid : Nat) (p : PendingWithdrawal) :
    (fulfillClearState s rid p).balances = s.balances := rfl

@[simp] lemma fulfillClearState_ownedTokens (s : State) (rid : Nat) (p : PendingWithdrawal) :
    (fulfillClearState s rid p).ownedTokens = s.ownedTokens := rfl

@[simp] lemma fulfillClearState_mintedIds (s : State) (rid : Nat) (p : PendingWithdrawal) :
    (fulfillClearState s rid p).mintedIds = s.mintedIds := rfl

@[simp] lemma fulfillClearState_tokenApprovals (s : State) (rid : Nat)
    (p : PendingWithdrawal) :
    (fulfillClearState s rid p).tokenApprovals = s.tokenApprovals := rfl

@[simp] lemma fulfillClearState_operatorApprovals (s : State) (rid : Nat)
    (p : PendingWithdrawal) :
    (fulfillClearState s rid p).operatorApprovals = s.operatorApprovals := rfl

@[simp] lemma fulfillClearState_fhe (s : State) (rid : Nat) (p : PendingWithdrawal) :
    (fulfillClearState s rid p).fhe = s.fhe := rfl

/-! Inversion and construction lemmas for the entry points. -/

/-- Inversion of a successful stake(): the checks passed, the result id is
the pre-state's next id and the post-state is `stakeResultState`. -/
theorem stake_inv {s : State} {sender v : Nat} {s' : State} {tid : Nat}
    (h : stake s sender v = .ok (s', tid)) :
    v ≠ 0 ∧ sender ≠ 0 ∧ s.owners s.nextTokenId = 0 ∧
    s' = stakeResultState s sender v ∧ tid = s.nextTokenId := by
  unfold stake at h
  by_cases hv : v = 0
  · simp [hv] at h
  · rw [if_neg hv] at h
    by_cases hw : sender = 0
    · simp [hw] at h
    · rw [if_neg hw] at h
      by_cases ho : s.owners s.nextTokenId ≠ 0
      · simp [ho] at h
      · rw [if_neg ho] at h
        simp only [Except.ok.injEq, Prod.mk.injEq] at h
        exact ⟨hv, hw, not_ne_iff.mp ho, h.1.symm, h.2.symm⟩

/-- A stake() whose checks pass succeeds. -/
theorem stake_ok {s : State} {sender v : Nat} (hv : v ≠ 0) (hw : sender ≠ 0)
    (ho : s.owners s.nextTokenId = 0) :
    stake s sender v = .ok (stakeResultState s sender v, s.nextTokenId) := by
  unfold stake
  rw [if_neg hv, if_neg hw, if_neg (by simp [ho])]

/-- Inversion of a successful redeem(): the certificate was live, the caller
authorized, no request pending, the stake initialized; the request id is the
pre-state's next request id and the post-state is `redeemResultState`. -/
theorem redeem_inv {s : State} {sender tid : Nat} {s' : State} {rid : Nat}
    (h : redeem s sender tid = .ok (s', rid)) :
    s.owners tid ≠ 0 ∧ s.isAuthorized (s.owners tid) sender tid = true ∧
    s.isTokenPending tid = false ∧ s.encryptedStakes tid ≠ 0 ∧
    s' = redeemResultState s tid ∧ rid = s.fhe.nextRequestId := by
  unfold redeem at h
  by_cases ho : s.owners tid = 0
  · simp [ho] at h
  · rw [if_neg ho] at h
    by_cases ha : s.isAuthorized (s.owners tid) sender tid = false
    · simp [ha] at h
    · rw [if_neg ha] at h
      by_cases hp : s.isTokenPending tid = true
      · simp [hp] at h
      · rw [if_neg hp] at h
        by_cases he : s.encryptedStakes tid = 0
        · simp [FHE.isInitialized, he] at h
        · rw [if_neg (by simp [FHE.isInitialized, he])] at h
          simp only [Except.ok.injEq, Prod.mk.injEq] at h
          exact ⟨ho, by simpa using ha, by simpa using hp, he,
            h.1.symm, h.2.symm⟩

/-- A redeem() whose checks pass succeeds. -/
theorem redeem_ok {s : State} {sender tid : Nat} (ho : s.owners tid ≠ 0)
    (ha : s.isAuthorized (s.owners tid) sender tid = true)
    (hp : s.isTokenPending tid = false) (he : s.encryptedStakes tid ≠ 0) :
    redeem s sender tid = .ok (redeemResultState s tid, s.fhe.nextRequestId) := by
  unfold redeem
  rw [if_neg ho, if_neg (by simp [ha]), if_neg (by simp [hp]),
    if_neg (by simp [FHE.isInitialized, he])]

/-- redeem() of a certificate with no owner (never minted, or already
burned) reverts with the invalid-certificate error, for every caller. -/
theorem redeem_invalidCertificate {s : State} (sender tid : Nat)
    (ho : s.owners tid = 0) : redeem s sender tid = .error .InvalidCertificate := by
  unfold redeem
  rw [if_pos ho]

/-- redeem() by an unauthorized caller of a live certificate reverts with
the unauthorized error. -/
theorem redeem_unauthorized {s : State} {sender tid : Nat}
    (ho : s.owners tid ≠ 0)
    (ha : s.isAuthorized (s.owners tid) sender tid = false) :
    redeem s sender tid = .error .Unauthorized := by
  unfold redeem
  rw [if_neg ho, if_pos ha]

/-- getEncryptedStake() of an id with no live binding (never staked, or
already redeemed) reverts with the stake-not-found error. -/
theorem getEncryptedStake_notFound {s : State} {tid : Nat}
    (he : s.encryptedStakes tid = 0) :
    getEncryptedStake s tid = .error .StakeNotFound := by
  unfold getEncryptedStake
  rw [if_pos (by simp [FHE.isInitialized, he])]

/-- Inversion of a successful onDecryptionFulfilled(): the oracle gate and
record-existence check passed, the cleartext is the true decryption of the
request's ciphertexts and the proof the genuine one, the transfer paid the
recorded beneficiary exactly the decrypted amount, and the post-state is the
cleared state. -/
theorem fulfill_inv {env : Env} {tOk : Address → Nat → Bool} {s : State}
    {sender rid ct pf : Nat} {s' : State} {b a : Nat}
    (h : onDecryptionFulfilled env tOk s sender rid ct pf = .ok (s', b, a)) :
    (env.enforceOracleCheck = true → sender = env.decryptionOracle) ∧
    (s.pendingByRequest rid).existsFlag = true ∧
    ct = s.fhe.decryptRequest rid ∧ pf = env.kmsProof rid ∧
    b = (s.pendingByRequest rid).recipient ∧ a = ct ∧
    tOk (s.pendingByRequest rid).recipient ct = true ∧
    s' = fulfillClearState s rid (s.pendingByRequest rid) := by
  unfold onDecryptionFulfilled at h
  by_cases hg : env.enforceOracleCheck = true ∧ sender ≠ env.decryptionOracle
  · simp [hg] at h
  · rw [if_neg hg] at h
    by_cases hex : (s.pendingByRequest rid).existsFlag = false
    · simp [hex] at h
    · rw [if_neg hex] at h
      by_cases hsig : FHE.checkSignatures env s.fhe rid ct pf = false
      · simp [hsig] at h
      · rw [if_neg hsig] at h
        by_cases htr : tOk (s.pendingByRequest rid).recipient ct = false
        · simp [htr] at h
        · rw [if_neg htr] at h
          simp only [Except.ok.injEq, Prod.mk.injEq] at h
          have hsig' : FHE.checkSignatures env s.fhe rid ct pf = true := by
            simpa using hsig
          simp only [FHE.checkSignatures, Bool.and_eq_true, beq_iff_eq] at hsig'
          refine ⟨fun hen => ?_, by simpa using hex, hsig'.1, hsig'.2,
            h.2.1.symm, h.2.2.symm, by simpa using htr, h.1.symm⟩
          by_contra hne
          exact hg ⟨hen, hne⟩

/-- An onDecryptionFulfilled() whose checks pass succeeds, deletes the
record, and transfers the decrypted amount to the recorded beneficiary. -/
theorem fulfill_ok {env : Env} {tOk : Address → Nat → Bool} {s : State}
    {sender rid ct pf : Nat}
    (hg : env.enforceOracleCheck = true → sender = env.decryptionOracle)
    (hex : (s.pendingByRequest rid).existsFlag = true)
    (hct : ct = s.fhe.decryptRequest rid) (hpf : pf = env.kmsProof rid)
    (htr : tOk (s.pendingByRequest rid).recipient ct = true) :
    onDecryptionFulfilled env tOk s sender rid ct pf =
      .ok (fulfillClearState s rid (s.pendingByRequest rid),
        (s.pendingByRequest rid).recipient, ct) := by
  unfold onDecryptionFulfilled
  rw [if_neg (by rintro ⟨h1, h2⟩; exact h2 (hg h1)), if_neg (by simp [hex]),
    if_neg (by simp [FHE.checkSignatures, hct, hpf]), if_neg (by simp [htr])]

/-- onDecryptionFulfilled() for a request with no Pending Withdrawal Record
reverts with the unknown-request error (provided the oracle gate passes). -/
theorem fulfill_unknownRequest {env : Env} {tOk : Address → Nat → Bool} {s : State}
    {sender rid : Nat} (ct pf : Nat)
    (hg : env.enforceOracleCheck = true → sender = env.decryptionOracle)
    (hex : (s.pendingByRequest rid).existsFlag = false) :
    onDecryptionFulfilled env tOk s sender rid ct pf = .error .UnknownRequest := by
  unfold onDecryptionFulfilled
  rw [if_neg (by rintro ⟨h1, h2⟩; exact h2 (hg h1)), if_pos hex]

/-- onDecryptionFulfilled() with a cleartext / proof pair that does not
verify reverts with the invalid-proof error. -/
theorem fulfill_invalidProof {env : Env} {tOk : Address → Nat → Bool} {s : State}
    {sender rid ct pf : Nat}
    (hg : env.enforceOracleCheck = true → sender = env.decryptionOracle)
    (hex : (s.pendingByRequest rid).existsFlag = true)
    (hsig : FHE.checkSignatures env s.fhe rid ct pf = false) :
    onDecryptionFulfilled env tOk s sender rid ct pf = .error .InvalidProof := by
  unfold onDecryptionFulfilled
  rw [if_neg (by rintro ⟨h1, h2⟩; exact h2 (hg h1)), if_neg (by simp [hex]), if_pos hsig]

/-- onDecryptionFulfilled() whose value transfer fails reverts with the
transfer-failed error. -/
theorem fulfill_transferFailed {env : Env} {tOk : Address → Nat → Bool} {s : State}
    {sender rid ct pf : Nat}
    (hg : env.enforceOracleCheck = true → sender = env.decryptionOracle)
    (hex : (s.pendingByRequest rid).existsFlag = true)
    (hct : ct = s.fhe.decryptRequest rid) (hpf : pf = env.kmsProof rid)
    (htr : tOk (s.pendingByRequest rid).recipient ct = false) :
    onDecryptionFulfilled env tOk s sender rid ct pf = .error .TransferFailed := by
  unfold onDecryptionFulfilled
  rw [if_neg (by rintro ⟨h1, h2⟩; exact h2 (hg h1)), if_neg (by simp [hex]),
    if_neg (by simp [FHE.checkSignatures, hct, hpf]), if_pos htr]

/-! Lemmas about the swap-and-pop enumeration removal. -/

lemma setFirst_length (l : List Nat) (tid v : Nat) :
    (setFirst l tid v).length = l.length := by
  induction l with
  | nil => rfl
  | cons x xs ih => by_cases hx : x = tid <;> simp [setFirst, hx, ih]

lemma dropLast_cons_of_ne_nil (x : Nat) {l : List Nat} (h : l ≠ []) :
    (x :: l).dropLast = x :: l.dropLast := by
  cases l with
  | nil => exact absurd rfl h
  | cons y ys => rfl

/-- Swap-and-pop removal produces a permutation of plain first-occurrence
removal. -/
lemma removeOwned_perm {l : List Nat} {tid : Nat} (h : tid ∈ l) :
    (removeOwned l tid).Perm (l.erase tid) := by
  induction l with
  | nil => cases h
  | cons x xs ih =>
    by_cases hx : x = tid
    · subst hx
      rcases List.eq_nil_or_concat xs with rfl | ⟨ys, y, rfl⟩
      · simp [removeOwned, setFirst]
      · simp only [List.concat_eq_append] at h ⊢
        have hg : ((x :: ys) ++ [y]).getLastD 0 = y := List.getLastD_concat _ _ _
        rw [List.cons_append] at hg
        have hrm : removeOwned (x :: (ys ++ [y])) x = y :: ys := by
          unfold removeOwned
          rw [hg]
          have : setFirst (x :: (ys ++ [y])) x y = (y :: ys) ++ [y] := by
            simp [setFirst]
          rw [this, List.dropLast_concat]
        rw [hrm, List.erase_cons_head]
        exact (List.perm_append_singleton y ys).symm
    · have htid : tid ∈ xs := by
        rcases List.mem_cons.mp h with rfl | h2
        · exact absurd rfl hx
        · exact h2
      have hxs : xs ≠ [] := by rintro rfl; cases htid
      have hrm : removeOwned (x :: xs) tid = x :: removeOwned xs tid := by
        unfold removeOwned
        have hg : (x :: xs).getLastD 0 = xs.getLastD 0 := by
          cases xs with
          | nil => exact absurd rfl hxs
          | cons z zs => rfl
        rw [hg]
        have hsf : setFirst (x :: xs) tid (xs.getLastD 0) =
            x :: setFirst xs tid (xs.getLastD 0) := by
          simp [setFirst, hx]
        rw [hsf]
        refine dropLast_cons_of_ne_nil x ?_
        intro hnil
        have := setFirst_length xs tid (xs.getLastD 0)
        rw [hnil] at this
        exact hxs (List.eq_nil_of_length_eq_zero this.symm)
      have her : (x :: xs).erase tid = x :: xs.erase tid := by
        rw [List.erase_cons]
        simp [hx]
      rw [hrm, her]
      exact (ih htid).cons x

lemma removeOwned_nodup {l : List Nat} {tid : Nat} (hnd : l.Nodup) (h : tid ∈ l) :
    (removeOwned l tid).Nodup :=
  ((removeOwned_perm h).nodup_iff).mpr (hnd.erase tid)

lemma removeOwned_mem {l : List Nat} {tid : Nat} (hnd : l.Nodup) (h : tid ∈ l)
    (t : Nat) : t ∈ removeOwned l tid ↔ t ≠ tid ∧ t ∈ l := by
  rw [(removeOwned_perm h).mem_iff]
  exact hnd.mem_erase_iff

lemma removeOwned_length {l : List Nat} {tid : Nat} (h : tid ∈ l) :
    (removeOwned l tid).length = l.length - 1 := by
  rw [(removeOwned_perm h).length_eq]
  exact List.length_erase_of_mem h

/-! The enumeration loop of tokensOf(). -/

lemma mapTokens_eq (s : State) (owner : Address) (howner : owner ≠ 0) :
    ∀ idxs : List Nat, (∀ i ∈ idxs, i < s.balances owner) →
      mapTokens s owner idxs = .ok (idxs.map fun i => (s.ownedTokens owner).getD i 0) := by
  intro idxs
  induction idxs with
  | nil => intro _; rfl
  | cons i is ih =>
    intro hb
    have hi : i < s.balances owner := hb i (List.mem_cons_self _ _)
    have hone : s.tokenOfOwnerByIndex owner i =
        .ok ((s.ownedTokens owner).getD i 0) := by
      simp [State.tokenOfOwnerByIndex, State.balanceOf, howner, hi]
    simp [mapTokens, hone, ih (fun j hj => hb j (List.mem_cons_of_mem _ hj))]

lemma map_getD_range (l : List Nat) :
    (List.range l.length).map (fun i => l.getD i 0) = l := by
  induction l with
  | nil => rfl
  | cons x xs ih =>
    rw [List.length_cons, List.range_succ_eq_map, List.map_cons, List.map_map]
    show x :: (List.range xs.length).map (fun i => xs.getD i 0) = x :: xs
    rw [ih]

/-- tokensOf() returns exactly the owner's enumeration list whenever the
stored balance agrees with the list's length (an invariant of reachable
states). -/
theorem tokensOf_eq {s : State} {owner : Address} (howner : owner ≠ 0)
    (hlen : s.balances owner = (s.ownedTokens owner).length) :
    s.tokensOf owner = .ok (s.ownedTokens owner) := by
  unfold State.tokensOf State.balanceOf
  rw [if_neg howner]
  show mapTokens s owner (List.range (s.balances owner)) = .ok (s.ownedTokens owner)
  rw [mapTokens_eq s owner howner _ (fun i hi => List.mem_range.mp hi), hlen,
    map_getD_range]

/-! Projection lemmas for ERC721 transfers, and inversion lemmas for the
inherited entry points. -/

@[simp] lemma transferUpdate_owners (s : State) (w tid t : Nat) :
    (transferUpdate s w tid).owners t = if t = tid then w else s.owners t := rfl

@[simp] lemma transferUpdate_tokenApprovals (s : State) (w tid t : Nat) :
    (transferUpdate s w tid).tokenApprovals t =
      if t = tid then 0 else s.tokenApprovals t := rfl

@[simp] lemma transferUpdate_balances (s : State) (w tid a : Nat) :
    (transferUpdate s w tid).balances a =
      if a = w then (if a = s.owners tid then s.balances a - 1 else s.balances a) + 1
      else (if a = s.owners tid then s.balances a - 1 else s.balances a) := rfl

@[simp] lemma transferUpdate_ownedTokens (s : State) (w tid a : Nat) :
    (transferUpdate s w tid).ownedTokens a =
      if s.owners tid = w then s.ownedTokens a
      else if a = s.owners tid then removeOwned (s.ownedTokens a) tid
      else if a = w then s.ownedTokens a ++ [tid]
      else s.ownedTokens a := rfl

@[simp] lemma transferUpdate_nextTokenId (s : State) (w tid : Nat) :
    (transferUpdate s w tid).nextTokenId = s.nextTokenId := rfl

@[simp] lemma transferUpdate_mintedIds (s : State) (w tid : Nat) :
    (transferUpdate s w tid).mintedIds = s.mintedIds := rfl

@[simp] lemma transferUpdate_encryptedStakes (s : State) (w tid : Nat) :
    (transferUpdate s w tid).encryptedStakes = s.encryptedStakes := rfl

@[simp] lemma transferUpdate_pendingByRequest (s : State) (w tid : Nat) :
    (transferUpdate s w tid).pendingByRequest = s.pendingByRequest := rfl

@[simp] lemma transferUpdate_requestByToken (s : State) (w tid : Nat) :
    (transferUpdate s w tid).requestByToken = s.requestByToken := rfl

@[simp] lemma transferUpdate_isTokenPending (s : State) (w tid : Nat) :
    (transferUpdate s w tid).isTokenPending = s.isTokenPending := rfl

@[simp] lemma transferUpdate_operatorApprovals (s : State) (w tid : Nat) :
    (transferUpdate s w tid).operatorApprovals = s.operatorApprovals := rfl

@[simp] lemma transferUpdate_fhe (s : State) (w tid : Nat) :
    (transferUpdate s w tid).fhe = s.fhe := rfl

/-- Inversion of a successful approve(). -/
theorem approve_inv {s : State} {sender w tid : Nat} {s' : State}
    (h : approve s sender w tid = .ok s') :
    s.owners tid ≠ 0 ∧
    s' = { s with tokenApprovals := fun t => if t = tid then w else s.tokenApprovals t } := by
  unfold approve at h
  by_cases ho : s.owners tid = 0
  · simp [ho] at h
  · rw [if_neg ho] at h
    by_cases hc : sender ≠ 0 ∧ s.owners tid ≠ sender ∧
        s.isApprovedForAll (s.owners tid) sender = false
    · rw [if_pos hc] at h
      simp at h
    · rw [if_neg hc] at h
      injection h with h1
      exact ⟨ho, h1.symm⟩

/-- Inversion of a successful setApprovalForAll(). -/
theorem setApprovalForAll_inv {s : State} {sender op : Nat} {b : Bool} {s' : State}
    (h : setApprovalForAll s sender op b = .ok s') :
    op ≠ 0 ∧
    s' = { s with operatorApprovals := fun a o =>
      if a = sender ∧ o = op then b else s.operatorApprovals a o } := by
  unfold setApprovalForAll at h
  by_cases hop : op = 0
  · simp [hop] at h
  · rw [if_neg hop] at h
    injection h with h1
    exact ⟨hop, h1.symm⟩

/-- Inversion of a successful transferFrom(). -/
theorem transferFrom_inv {s : State} {sender fro w tid : Nat} {s' : State}
    (h : transferFrom s sender fro w tid = .ok s') :
    w ≠ 0 ∧ s.isAuthorized (s.owners tid) sender tid = true ∧ s.owners tid = fro ∧
    s' = transferUpdate s w tid := by
  unfold transferFrom at h
  by_cases hw : w = 0
  · simp [hw] at h
  · rw [if_neg hw] at h
    by_cases ha : s.isAuthorized (s.owners tid) sender tid = false
    · rw [if_pos ha] at h
      split at h <;> simp at h
    · rw [if_neg ha] at h
      by_cases hf : s.owners tid ≠ fro
      · simp [hf] at h
      · rw [if_neg hf] at h
        injection h with h1
        exact ⟨hw, by simpa using ha, not_ne_iff.mp hf, h1.symm⟩

/-! The reachable-state invariant of the ledger. -/

/-- Invariant of every reachable contract state: ids at or above the counter
are unminted; the ghost mint history stays below the counter; per-owner
enumeration lists are duplicate-free, contain exactly the currently owned
ids, and agree with the stored balances; handles are allocated from 1; the
zero address approves no operator and burned or unminted tokens carry no
token approval. -/
structure Inv (s : State) : Prop where
  ownersFresh : ∀ t, s.nextTokenId ≤ t → s.owners t = 0
  mintedLt : ∀ t, t ∈ s.mintedIds → t < s.nextTokenId
  ownedNodup : ∀ a, (s.ownedTokens a).Nodup
  ownedMem : ∀ a, a ≠ 0 → ∀ t, t ∈ s.ownedTokens a ↔ s.owners t = a
  ownedZero : s.ownedTokens 0 = []
  balLen : ∀ a, s.balances a = (s.ownedTokens a).length
  handlePos : 1 ≤ s.fhe.nextHandle
  opApprovZero : ∀ x, s.operatorApprovals 0 x = false
  approvZero : ∀ t, s.owners t = 0 → s.tokenApprovals t = 0

theorem initState_inv : Inv initState := by
  refine ⟨?_, ?_, ?_, ?_, ?_, ?_, ?_, ?_, ?_⟩
  · intro t _; rfl
  · intro t ht; exact absurd ht (by simp [initState])
  · intro a; simp [initState]
  · intro a ha t
    simp only [initState]
    simp [Ne.symm ha]
  · rfl
  · intro a; rfl
  · exact Nat.le_refl 1
  · intro x; rfl
  · intro t _; rfl

/-- An authorized caller (with a nonzero sender, as the execution
environment guarantees) implies the token is live: burned or unminted
tokens admit no authorization in reachable states. -/
theorem auth_owner_ne_zero {s : State} {sender tid : Nat} (hInv : Inv s)
    (hsender : sender ≠ 0)
    (ha : s.isAuthorized (s.owners tid) sender tid = true) : s.owners tid ≠ 0 := by
  intro h0
  rw [h0] at ha
  have h1 := hInv.opApprovZero sender
  have h2 := hInv.approvZero tid h0
  simp [State.isAuthorized, State.isApprovedForAll, h1, h2, hsender] at ha
  exact hsender ha.symm

lemma nodup_append_singleton {l : List Nat} {x : Nat} (hnd : l.Nodup) (hx : x ∉ l) :
    (l ++ [x]).Nodup := by
  rw [List.nodup_append]
  refine ⟨hnd, List.nodup_singleton x, fun b hb hbmem => ?_⟩
  rw [List.mem_singleton] at hbmem
  subst hbmem
  exact hx hb

theorem inv_stake {s : State} {sender v : Nat} {s' : State} {tid : Nat}
    (hInv : Inv s) (h : stake s sender v = .ok (s', tid)) : Inv s' := by
  obtain ⟨hv, hw, ho, rfl, rfl⟩ := stake_inv h
  have hNmem : ∀ a, s.nextTokenId ∉ s.ownedTokens a := by
    intro a hmem
    by_cases ha : a = 0
    · rw [ha, hInv.ownedZero] at hmem
      cases hmem
    · have hx := (hInv.ownedMem a ha _).mp hmem
      rw [hInv.ownersFresh _ (Nat.le_refl _)] at hx
      exact ha hx.symm
  refine ⟨?_, ?_, ?_, ?_, ?_, ?_, ?_, ?_, ?_⟩
  · intro t ht
    rw [stakeResultState_nextTokenId] at ht
    rw [stakeResultState_owners, if_neg (by omega)]
    exact hInv.ownersFresh t (by omega)
  · intro t ht
    rw [stakeResultState_mintedIds] at ht
    rw [stakeResultState_nextTokenId]
    rcases List.mem_append.mp ht with h1 | h1
    · exact Nat.lt_succ_of_lt (hInv.mintedLt t h1)
    · rw [List.mem_singleton] at h1
      omega
  · intro a
    rw [stakeResultState_ownedTokens]
    by_cases ha : a = sender
    · rw [if_pos ha]
      exact nodup_append_singleton (hInv.ownedNodup a) (hNmem a)
    · rw [if_neg ha]
      exact hInv.ownedNodup a
  · intro a ha t
    rw [stakeResultState_ownedTokens, stakeResultState_owners]
    by_cases has : a = sender
    · rw [if_pos has]
      by_cases htn : t = s.nextTokenId
      · subst htn
        rw [if_pos rfl]
        simp [has, hNmem a]
      · rw [if_neg htn]
        constructor
        · intro hmem
          rcases List.mem_append.mp hmem with h1 | h1
          · exact (hInv.ownedMem a ha t).mp h1
          · rw [List.mem_singleton] at h1
            exact absurd h1 htn
        · intro heq
          exact List.mem_append.mpr (Or.inl ((hInv.ownedMem a ha t).mpr heq))
    · rw [if_neg has]
      by_cases htn : t = s.nextTokenId
      · subst htn
        rw [if_pos rfl]
        constructor
        · intro hmem
          exact absurd hmem (hNmem a)
        · intro heq
          exact absurd heq.symm has
      · rw [if_neg htn]
        exact hInv.ownedMem a ha t
  · rw [stakeResultState_ownedTokens, if_neg (fun h0 => hw h0.symm)]
    exact hInv.ownedZero
  · intro a
    rw [stakeResultState_balances, stakeResultState_ownedTokens]
    by_cases ha : a = sender
    · rw [if_pos ha, if_pos ha, List.length_append, List.length_singleton,
        hInv.balLen a]
    · rw [if_neg ha, if_neg ha]
      exact hInv.balLen a
  · rw [stakeResultState_fhe_nextHandle]
    exact Nat.le_succ_of_le hInv.handlePos
  · intro x
    rw [stakeResultState_operatorApprovals]
    exact hInv.opApprovZero x
  · intro t ht
    rw [stakeResultState_owners] at ht
    rw [stakeResultState_tokenApprovals]
    apply hInv.approvZero
    by_cases htn : t = s.nextTokenId
    · rw [if_pos htn] at ht
      exact absurd ht hw
    · rw [if_neg htn] at ht
      exact ht

theorem inv_redeem {s : State} {sender tid : Nat} {s' : State} {rid : Nat}
    (hInv : Inv s) (h : redeem s sender tid = .ok (s', rid)) : Inv s' := by
  obtain ⟨ho, _, _, _, rfl, rfl⟩ := redeem_inv h
  have htmem : tid ∈ s.ownedTokens (s.owners tid) := (hInv.ownedMem _ ho tid).mpr rfl
  refine ⟨?_, ?_, ?_, ?_, ?_, ?_, ?_, ?_, ?_⟩
  · intro t ht
    rw [redeemResultState_nextTokenId] at ht
    rw [redeemResultState_owners]
    by_cases htn : t = tid
    · rw [if_pos htn]
    · rw [if_neg htn]
      exact hInv.ownersFresh t ht
  · intro t ht
    rw [redeemResultState_mintedIds] at ht
    rw [redeemResultState_nextTokenId]
    exact hInv.mintedLt t ht
  · intro a
    rw [redeemResultState_ownedTokens]
    by_cases ha : a = s.owners tid
    · rw [if_pos ha]
      exact removeOwned_nodup (hInv.ownedNodup a) (ha ▸ htmem)
    · rw [if_neg ha]
      exact hInv.ownedNodup a
  · intro a ha t
    rw [redeemResultState_ownedTokens, redeemResultState_owners]
    by_cases haw : a = s.owners tid
    · rw [if_pos haw, removeOwned_mem (hInv.ownedNodup a) (haw ▸ htmem) t]

      by_cases htn : t = tid
      · subst htn
        rw [if_pos rfl]
        constructor
        · rintro ⟨hne, _⟩
          exact absurd rfl hne
        · intro h0
          exact absurd h0.symm ha
      · rw [if_neg htn, hInv.ownedMem a ha t]
        exact ⟨fun hx => hx.2, fun hx => ⟨htn, hx⟩⟩
    · rw [if_neg haw]
      by_cases htn : t = tid
      · subst htn
        rw [if_pos rfl]
        constructor
        · intro hmem
          exact absurd ((hInv.ownedMem a ha t).mp hmem).symm haw
        · intro h0
          exact absurd h0.symm ha
      · rw [if_neg htn]
        exact hInv.ownedMem a ha t
  · rw [redeemResultState_ownedTokens, if_neg (fun h0 => ho h0.symm)]
    exact hInv.ownedZero
  · intro a
    rw [redeemResultState_balances, redeemResultState_ownedTokens]
    by_cases ha : a = s.owners tid
    · rw [if_pos ha, if_pos ha, removeOwned_length (ha ▸ htmem), hInv.balLen a]
    · rw [if_neg ha, if_neg ha]
      exact hInv.balLen a
  · rw [redeemResultState_fhe_nextHandle]
    exact hInv.handlePos
  · intro x
    rw [redeemResultState_operatorApprovals]
    exact hInv.opApprovZero x
  · intro t ht
    rw [redeemResultState_owners] at ht
    rw [redeemResultState_tokenApprovals]
    by_cases htn : t = tid
    · rw [if_pos htn]
    · rw [if_neg htn] at ht ⊢
      exact hInv.approvZero t ht

theorem inv_fulfill {env : Env} {tOk : Address → Nat → Bool} {s : State}
    {sender rid ct pf : Nat} {s' : State} {b a : Nat} (hInv : Inv s)
    (h : onDecryptionFulfilled env tOk s sender rid ct pf = .ok (s', b, a)) :
    Inv s' := by
  obtain ⟨_, _, _, _, _, _, _, rfl⟩ := fulfill_inv h
  exact ⟨hInv.ownersFresh, hInv.mintedLt, hInv.ownedNodup, hInv.ownedMem,
    hInv.ownedZero, hInv.balLen, hInv.handlePos, hInv.opApprovZero, hInv.approvZero⟩

theorem inv_approve {s : State} {sender w tid : Nat} {s' : State}
    (hInv : Inv s) (h : approve s sender w tid = .ok s') : Inv s' := by
  obtain ⟨ho, rfl⟩ := approve_inv h
  refine ⟨hInv.ownersFresh, hInv.mintedLt, hInv.ownedNodup, hInv.ownedMem,
    hInv.ownedZero, hInv.balLen, hInv.handlePos, hInv.opApprovZero, ?_⟩
  intro t ht
  show (if t = tid then w else s.tokenApprovals t) = 0
  by_cases htn : t = tid
  · subst htn
    exact absurd ht ho
  · rw [if_neg htn]
    exact hInv.approvZero t ht

theorem inv_setApprovalForAll {s : State} {sender op : Nat} {b : Bool} {s' : State}
    (hInv : Inv s) (hsender : sender ≠ 0)
    (h : setApprovalForAll s sender op b = .ok s') : Inv s' := by
  obtain ⟨hop, rfl⟩ := setApprovalForAll_inv h
  refine ⟨hInv.ownersFresh, hInv.mintedLt, hInv.ownedNodup, hInv.ownedMem,
    hInv.ownedZero, hInv.balLen, hInv.handlePos, ?_, hInv.approvZero⟩
  intro x
  show (if (0 : Nat) = sender ∧ x = op then b else s.operatorApprovals 0 x) = false
  rw [if_neg (fun hx => hsender hx.1.symm)]
  exact hInv.opApprovZero x

theorem inv_transferFrom {s : State} {sender fro w tid : Nat} {s' : State}
    (hInv : Inv s) (hsender : sender ≠ 0)
    (h : transferFrom s sender fro w tid = .ok s') : Inv s' := by
  obtain ⟨hw, hauth, hf, rfl⟩ := transferFrom_inv h
  have ho : s.owners tid ≠ 0 := auth_owner_ne_zero hInv hsender hauth
  have htmem : tid ∈ s.ownedTokens (s.owners tid) := (hInv.ownedMem _ ho tid).mpr rfl
  refine ⟨?_, ?_, ?_, ?_, ?_, ?_, ?_, ?_, ?_⟩
  · intro t ht
    rw [transferUpdate_nextTokenId] at ht
    rw [transferUpdate_owners]
    have htn : t ≠ tid := by
      intro heq
      subst heq
      exact ho (hInv.ownersFresh t ht)
    rw [if_neg htn]
    exact hInv.ownersFresh t ht
  · intro t ht
    rw [transferUpdate_mintedIds] at ht
    rw [transferUpdate_nextTokenId]
    exact hInv.mintedLt t ht
  · intro a
    rw [transferUpdate_ownedTokens]
    by_cases hpt : s.owners tid = w
    · rw [if_pos hpt]
      exact hInv.ownedNodup a
    · rw [if_neg hpt]
      by_cases hap : a = s.owners tid
      · rw [if_pos hap]
        exact removeOwned_nodup (hInv.ownedNodup a) (hap ▸ htmem)
      · rw [if_neg hap]
        by_cases haw : a = w
        · rw [if_pos haw]
          refine nodup_append_singleton (hInv.ownedNodup a) ?_
          intro hmem
          have hx := (hInv.ownedMem a (by rw [haw]; exact hw) tid).mp hmem
          exact hpt (hx.trans haw)
        · rw [if_neg haw]
          exact hInv.ownedNodup a
  · intro a ha t
    rw [transferUpdate_ownedTokens, transferUpdate_owners]
    by_cases hpt : s.owners tid = w
    · rw [if_pos hpt]
      by_cases htn : t = tid
      · subst htn
        rw [if_pos rfl, hInv.ownedMem a ha t, hpt]
      · rw [if_neg htn]
        exact hInv.ownedMem a ha t
    · rw [if_neg hpt]
      by_cases hap : a = s.owners tid
      · rw [if_pos hap, removeOwned_mem (hInv.ownedNodup a) (hap ▸ htmem) t]
        by_cases htn : t = tid
        · subst htn
          rw [if_pos rfl]
          constructor
          · rintro ⟨hne, _⟩
            exact absurd rfl hne
          · intro hwa
            exact absurd (hwa.trans hap).symm hpt
        · rw [if_neg htn, hInv.ownedMem a ha t]
          exact ⟨fun hx => hx.2, fun hx => ⟨htn, hx⟩⟩
      · rw [if_neg hap]
        by_cases haw : a = w
        · rw [if_pos haw]
          by_cases htn : t = tid
          · subst htn
            rw [if_pos rfl]
            constructor
            · intro _
              exact haw.symm
            · intro _
              exact List.mem_append.mpr (Or.inr (List.mem_singleton.mpr rfl))
          · rw [if_neg htn]
            constructor
            · intro hmem
              rcases List.mem_append.mp hmem with h1 | h1
              · exact (hInv.ownedMem a ha t).mp h1
              · rw [List.mem_singleton] at h1
                exact absurd h1 htn
            · intro heq
              exact List.mem_append.mpr (Or.inl ((hInv.ownedMem a ha t).mpr heq))
        · rw [if_neg haw]
          by_cases htn : t = tid
          · subst htn
            rw [if_pos rfl]
            constructor
            · intro hmem
              exact absurd ((hInv.ownedMem a ha t).mp hmem).symm hap
            · intro hwa
              exact absurd hwa.symm haw
          · rw [if_neg htn]
            exact hInv.ownedMem a ha t
  · rw [transferUpdate_ownedTokens]
    by_cases hpt : s.owners tid = w
    · rw [if_pos hpt]
      exact hInv.ownedZero
    · rw [if_neg hpt, if_neg (fun h0 => ho h0.symm), if_neg (fun h0 => hw h0.symm)]
      exact hInv.ownedZero
  · intro a
    rw [transferUpdate_balances, transferUpdate_ownedTokens]
    by_cases hpt : s.owners tid = w
    · rw [if_pos hpt]
      by_cases haw : a = w
      · rw [if_pos haw, if_pos (haw.trans hpt.symm), hInv.balLen a]
        have hlenpos : 0 < (s.ownedTokens a).length :=
          List.length_pos_of_mem (by rw [haw.trans hpt.symm]; exact htmem)
        omega
      · rw [if_neg haw, if_neg (fun hx => haw (hx.trans hpt))]
        exact hInv.balLen a
    · rw [if_neg hpt]
      by_cases hap : a = s.owners tid
      · rw [if_neg (fun hx : a = w => hpt (hap.symm.trans hx)), if_pos hap,
          if_pos hap, removeOwned_length (hap ▸ htmem), hInv.balLen a]
      · rw [if_neg hap]
        by_cases haw : a = w
        · rw [if_pos haw, if_pos haw, if_neg hap, List.length_append,
            List.length_singleton, hInv.balLen a]
        · rw [if_neg haw, if_neg haw, if_neg hap]
          exact hInv.balLen a
  · rw [transferUpdate_fhe]
    exact hInv.handlePos
  · intro x
    rw [transferUpdate_operatorApprovals]
    exact hInv.opApprovZero x
  · intro t ht
    rw [transferUpdate_owners] at ht
    rw [transferUpdate_tokenApprovals]
    by_cases htn : t = tid
    · rw [if_pos htn]
    · rw [if_neg htn] at ht ⊢
      exact hInv.approvZero t ht

/-- Every single successful transition preserves the invariant. -/
theorem inv_step {env : Env} {s s' : State} (hInv : Inv s) (h : Step env s s') :
    Inv s' := by
  cases h with
  | stakeOp s sender v s' tid hs hok => exact inv_stake hInv hok
  | redeemOp s sender tid s' rid hs hok => exact inv_redeem hInv hok
  | fulfillOp tOk s sender rid ct pf s' tr hs hok =>
      exact inv_fulfill hInv (by rw [hok])
  | approveOp s sender w tid s' hs hok => exact inv_approve hInv hok
  | setApprovalOp s sender op b s' hs hok => exact inv_setApprovalForAll hInv hs hok
  | transferOp s sender fro w tid s' hs hok => exact inv_transferFrom hInv hs hok

/-- Every reachable state of the deployed contract satisfies the
invariant. -/
theorem inv_reachable {env : Env} {s : State} (h : Reachable env s) : Inv s := by
  induction h with
  | refl => exact initState_inv
  | tail hstar hstep ih => exact inv_step ih hstep

/-! Helper facts for the claim theorems. -/

/-- Once a certificate is burned (owner zero, stake cleared) and its id is
below the mint counter, every further successful transition of the contract
keeps it that way: ids are never reused. -/
theorem burned_preserved {env : Env} {s s' : State} (hInv : Inv s)
    (hstep : Step env s s') {tid : Nat}
    (hq : tid < s.nextTokenId ∧ s.owners tid = 0 ∧ s.encryptedStakes tid = 0) :
    tid < s'.nextTokenId ∧ s'.owners tid = 0 ∧ s'.encryptedStakes tid = 0 := by
  obtain ⟨hlt, hown, hstk⟩ := hq
  cases hstep with
  | stakeOp s sender v s' tid2 hs hok =>
    obtain ⟨_, _, _, rfl, _⟩ := stake_inv hok
    refine ⟨by rw [stakeResultState_nextTokenId]; omega, ?_, ?_⟩
    · rw [stakeResultState_owners, if_neg (by omega)]
      exact hown
    · rw [stakeResultState_encryptedStakes, if_neg (by omega)]
      exact hstk
  | redeemOp s sender tid2 s' rid2 hs hok =>
    obtain ⟨ho2, _, _, _, rfl, _⟩ := redeem_inv hok
    have hne : tid ≠ tid2 := fun heq => ho2 (heq ▸ hown)
    refine ⟨by rw [redeemResultState_nextTokenId]; exact hlt, ?_, ?_⟩
    · rw [redeemResultState_owners, if_neg hne]
      exact hown
    · rw [redeemResultState_encryptedStakes, if_neg hne]
      exact hstk
  | fulfillOp tOk s sender rid2 ct pf s' tr hs hok =>
    rcases tr with ⟨b, a⟩
    obtain ⟨_, _, _, _, _, _, _, rfl⟩ := fulfill_inv hok
    exact ⟨hlt, hown, hstk⟩
  | approveOp s sender w tid2 s' hs hok =>
    obtain ⟨_, rfl⟩ := approve_inv hok
    exact ⟨hlt, hown, hstk⟩
  | setApprovalOp s sender op b s' hs hok =>
    obtain ⟨_, rfl⟩ := setApprovalForAll_inv hok
    exact ⟨hlt, hown, hstk⟩
  | transferOp s sender fro w tid2 s' hs hok =>
    obtain ⟨hw, hauth, hf, rfl⟩ := transferFrom_inv hok
    have ho2 : s.owners tid2 ≠ 0 := auth_owner_ne_zero hInv hs hauth
    have hne : tid ≠ tid2 := fun heq => ho2 (heq ▸ hown)
    refine ⟨by rw [transferUpdate_nextTokenId]; exact hlt, ?_, ?_⟩
    · rw [transferUpdate_owners, if_neg hne]
      exact hown
    · rw [transferUpdate_encryptedStakes]
      exact hstk

/-- The two-stake fixture state is reachable in the development-mode
deployment. -/
theorem reachable_W2 : Reachable envW W2 :=
  Relation.ReflTransGen.tail
    (Relation.ReflTransGen.tail Relation.ReflTransGen.refl
      (Step.stakeOp initState 1 5 W1 1 (by decide) rfl))
    (Step.stakeOp W1 2 7 W2 2 (by decide) rfl)

/-! The claim theorems. -/

/-- C5: stake with a zero msg.value always reverts with ZeroAmount and
mutates no state: the post-state equals the pre-state, so no certificate is
minted, the next-token-id counter is unchanged, and no encrypted balance or
pending entry is created. -/
theorem c5_stake_zero_reverts (s : State) (sender : Nat) :
    execStake s sender 0 = (s, .error .ZeroAmount) := rfl

/-- C6: redeem of a live certificate by any caller the registry does not
authorize for it (neither owner, nor approved operator, nor token-approved
address) reverts with Unauthorized, leaving the certificate, its encrypted
balance and all pending-withdrawal state exactly as before the call. -/
theorem c6_redeem_unauthorized_unchanged (s : State) (caller tid : Nat)
    (ho : s.owners tid ≠ 0)
    (ha : s.isAuthorized (s.owners tid) caller tid = false) :
    execRedeem s caller tid = (s, .error .Unauthorized) := by
  unfold execRedeem
  rw [redeem_unauthorized ho ha]

theorem c6_witness :
    execRedeem W1 3 1 = (W1, Except.error Err.Unauthorized) :=
  c6_redeem_unauthorized_unchanged W1 3 1 (by decide) (by decide)

/-- C2: when a Pending Withdrawal Record exists for the request and the
caller passes the oracle gate, fulfill with any cleartext / proof pair that
does not verify against the ciphertext submitted for that requestId reverts
with InvalidProof, transfers no value and leaves all state unchanged. -/
theorem c2_invalid_proof_no_transfer (env : Env) (tOk : Address → Nat → Bool)
    (s : State) (sender rid ct pf : Nat)
    (hg : env.enforceOracleCheck = true → sender = env.decryptionOracle)
    (hex : (s.pendingByRequest rid).existsFlag = true)
    (hsig : FHE.checkSignatures env s.fhe rid ct pf = false) :
    execFulfill env tOk s sender rid ct pf = (s, .error .InvalidProof) := by
  unfold execFulfill
  rw [fulfill_invalidProof hg hex hsig]

theorem c2_witness :
    execFulfill envW tOkW W3 9 1 5 1 = (W3, Except.error Err.InvalidProof) :=
  c2_invalid_proof_no_transfer envW tOkW W3 9 1 5 1 (by decide) (by decide) (by decide)

/-- C1: a successful fulfill leaves exactly the cleared state: the Pending
Withdrawal Record is deleted and the pending flag and request index cleared
before the value transfer (the transfer happens from the already-cleared
state), so a second fulfill with the same requestId — by any caller passing
the oracle gate, with any cleartext, proof and transfer disposition —
reverts with UnknownRequest, transfers nothing and changes nothing. -/
theorem c1_fulfill_idempotent (env : Env) (tOk tOk2 : Address → Nat → Bool)
    (s : State) (sender sender2 rid ct pf ct2 pf2 : Nat) (s' : State) (b a : Nat)
    (h : onDecryptionFulfilled env tOk s sender rid ct pf = .ok (s', b, a))
    (hg2 : env.enforceOracleCheck = true → sender2 = env.decryptionOracle) :
    s' = fulfillClearState s rid (s.pendingByRequest rid) ∧
    (s'.pendingByRequest rid).existsFlag = false ∧
    s'.isTokenPending (s.pendingByRequest rid).tokenId = false ∧
    s'.requestByToken (s.pendingByRequest rid).tokenId = 0 ∧
    onDecryptionFulfilled env tOk2 s' sender2 rid ct2 pf2 = .error .UnknownRequest ∧
    execFulfill env tOk2 s' sender2 rid ct2 pf2 = (s', .error .UnknownRequest) := by
  obtain ⟨hg, hex, hct, hpf, hb, ha2, htr, rfl⟩ := fulfill_inv h
  have hclear : ((fulfillClearState s rid (s.pendingByRequest rid)).pendingByRequest
      rid).existsFlag = false := by
    rw [fulfillClearState_pendingByRequest, if_pos rfl]
    rfl
  refine ⟨rfl, hclear, ?_, ?_, ?_, ?_⟩
  · rw [fulfillClearState_isTokenPending, if_pos rfl]
  · rw [fulfillClearState_requestByToken, if_pos rfl]
  · exact fulfill_unknownRequest ct2 pf2 hg2 hclear
  · unfold execFulfill
    rw [fulfill_unknownRequest ct2 pf2 hg2 hclear]

theorem c1_witness :
    W5 = fulfillClearState W4 1 (W4.pendingByRequest 1) ∧
    (W5.pendingByRequest 1).existsFlag = false ∧
    W5.isTokenPending (W4.pendingByRequest 1).tokenId = false ∧
    W5.requestByToken (W4.pendingByRequest 1).tokenId = 0 ∧
    onDecryptionFulfilled envW tOkW W5 9 1 5 0 = Except.error Err.UnknownRequest ∧
    execFulfill envW tOkW W5 9 1 5 0 = (W5, Except.error Err.UnknownRequest) :=
  c1_fulfill_idempotent envW tOkW tOkW W4 9 9 1 5 0 5 0 W5 1 5 rfl (by decide)

/-- C3 amended: when the value transfer inside fulfill fails, the call
reverts with TransferFailed and — by transaction rollback — the Pending
Withdrawal Record, the pending flag and the request index are all restored
intact, so the fulfillment CAN be retried with the same requestId and
succeeds as soon as the transfer goes through; only the certificate itself
stays burned, having been burned by the earlier redeem transaction. -/
theorem c3_transfer_failed_rolls_back (env : Env) (tOk tOk2 : Address → Nat → Bool)
    (s : State) (sender rid ct pf : Nat)
    (hg : env.enforceOracleCheck = true → sender = env.decryptionOracle)
    (hex : (s.pendingByRequest rid).existsFlag = true)
    (hct : ct = s.fhe.decryptRequest rid) (hpf : pf = env.kmsProof rid)
    (htr : tOk (s.pendingByRequest rid).recipient ct = false)
    (htr2 : tOk2 (s.pendingByRequest rid).recipient ct = true) :
    execFulfill env tOk s sender rid ct pf = (s, .error .TransferFailed) ∧
    ((execFulfill env tOk s sender rid ct pf).1.pendingByRequest rid).existsFlag
      = true ∧
    execFulfill env tOk2 s sender rid ct pf =
      (fulfillClearState s rid (s.pendingByRequest rid),
        .ok ((s.pendingByRequest rid).recipient, ct)) := by
  have h1 : execFulfill env tOk s sender rid ct pf = (s, .error .TransferFailed) := by
    unfold execFulfill
    rw [fulfill_transferFailed hg hex hct hpf htr]
  refine ⟨h1, ?_, ?_⟩
  · rw [h1]
    exact hex
  · unfold execFulfill
    rw [fulfill_ok hg hex hct hpf htr2]

/-- C3 counterexample: with certificate 1 redeemed (request 1 pending) and a
recipient that rejects the transfer, fulfill reverts with TransferFailed,
yet afterwards the Pending Withdrawal Record for request 1 STILL EXISTS
(refuting that it remains deleted), and retrying the very same fulfill with
a working transfer succeeds and pays out (refuting that no retry with the
same requestId is possible). -/
theorem c3_counterexample :
    execFulfill envW tOkFailW W3 9 1 5 0 = (W3, Except.error Err.TransferFailed) ∧
    ((execFulfill envW tOkFailW W3 9 1 5 0).1.pendingByRequest 1).existsFlag = true ∧
    (execFulfill envW tOkW W3 9 1 5 0).2 = Except.ok (1, 5) := by
  exact ⟨rfl, rfl, rfl⟩

theorem c3_witness :
    execFulfill envW tOkFailW W3 9 1 5 0 = (W3, Except.error Err.TransferFailed) ∧
    ((execFulfill envW tOkFailW W3 9 1 5 0).1.pendingByRequest 1).existsFlag = true ∧
    execFulfill envW tOkW W3 9 1 5 0 =
      (fulfillClearState W3 1 (W3.pendingByRequest 1),
        Except.ok ((W3.pendingByRequest 1).recipient, 5)) :=
  c3_transfer_failed_rolls_back envW tOkFailW tOkW W3 9 1 5 0 (by decide) (by decide)
    (by decide) (by decide) rfl rfl

/-- C4: from any reachable state, once redeem of a certificate succeeds, in
every later reachable state getEncryptedStake on that id reverts with
StakeNotFound and a further redeem of it by ANY caller reverts with
InvalidCertificate (in particular, with InvalidCertificate or Unauthorized):
at most one redeem per certificate can ever succeed, enforced by the
contract state itself — the burned owner entry and cleared stake — and not
by caller discipline. -/
theorem c4_redeem_only_once (env : Env) (s : State) (hreach : Reachable env s)
    (caller tid : Nat) (s' : State) (rid : Nat)
    (hred : redeem s caller tid = .ok (s', rid)) :
    ∀ s'', Relation.ReflTransGen (Step env) s' s'' →
      getEncryptedStake s'' tid = .error .StakeNotFound ∧
      ∀ caller2, redeem s'' caller2 tid = .error .InvalidCertificate := by
  have hInv := inv_reachable hreach
  have hInv' : Inv s' := inv_redeem hInv hred
  obtain ⟨ho, _, _, _, hs'eq, _⟩ := redeem_inv hred
  have hlt : tid < s.nextTokenId := by
    by_contra hge
    exact ho (hInv.ownersFresh tid (Nat.le_of_not_lt hge))
  have hq0 : tid < s'.nextTokenId ∧ s'.owners tid = 0 ∧ s'.encryptedStakes tid = 0 := by
    subst hs'eq
    refine ⟨by rw [redeemResultState_nextTokenId]; exact hlt,
      by rw [redeemResultState_owners, if_pos rfl],
      by rw [redeemResultState_encryptedStakes, if_pos rfl]⟩
  intro s'' htrail
  have main : Inv s'' ∧
      (tid < s''.nextTokenId ∧ s''.owners tid = 0 ∧ s''.encryptedStakes tid = 0) := by
    induction htrail with
    | refl => exact ⟨hInv', hq0⟩
    | tail hstar hstep ih => exact ⟨inv_step ih.1 hstep, burned_preserved ih.1 hstep ih.2⟩
  exact ⟨getEncryptedStake_notFound main.2.2.2,
    fun caller2 => redeem_invalidCertificate caller2 tid main.2.2.1⟩

theorem c4_witness :
    getEncryptedStake W3 1 = Except.error Err.StakeNotFound ∧
    redeem W3 2 1 = Except.error Err.InvalidCertificate := by
  have h := c4_redeem_only_once envW W2 reachable_W2 1 1 W3 1 rfl W3
    Relation.ReflTransGen.refl
  exact ⟨h.1, h.2 2⟩

/-- C7: from any reachable state, stake of a positive amount by a (nonzero)
staker succeeds, returns the current next-token-id — which is strictly
greater than every previously minted id, and the counter then moves to its
successor, so ids are never reused even after a burn — and binds to the new
certificate an initialized encrypted balance whose plaintext is exactly the
staked amount. -/
theorem c7_stake_fresh_id_and_amount (env : Env) (s : State)
    (hreach : Reachable env s) (sender amount : Nat)
    (hs : sender ≠ 0) (ha : amount ≠ 0) :
    stake s sender amount = .ok (stakeResultState s sender amount, s.nextTokenId) ∧
    (∀ t, t ∈ s.mintedIds → t < s.nextTokenId) ∧
    (stakeResultState s sender amount).nextTokenId = s.nextTokenId + 1 ∧
    (stakeResultState s sender amount).mintedIds = s.mintedIds ++ [s.nextTokenId] ∧
    FHE.isInitialized
      ((stakeResultState s sender amount).encryptedStakes s.nextTokenId) = true ∧
    (stakeResultState s sender amount).fhe.plainOf
      ((stakeResultState s sender amount).encryptedStakes s.nextTokenId) = amount := by
  have hInv := inv_reachable hreach
  have hfresh : s.owners s.nextTokenId = 0 := hInv.ownersFresh _ (Nat.le_refl _)
  refine ⟨stake_ok ha hs hfresh, hInv.mintedLt, rfl, rfl, ?_, ?_⟩
  · rw [stakeResultState_encryptedStakes, if_pos rfl]
    have h1 := hInv.handlePos
    have h2 : s.fhe.nextHandle ≠ 0 := by omega
    unfold FHE.isInitialized
    exact bne_iff_ne.mpr h2
  · rw [stakeResultState_encryptedStakes, if_pos rfl, stakeResultState_fhe_plainOf,
      if_pos rfl]

theorem c7_witness :
    stake initState 1 5 =
      Except.ok (stakeResultState initState 1 5, initState.nextTokenId) ∧
    (∀ t, t ∈ initState.mintedIds → t < initState.nextTokenId) ∧
    (stakeResultState initState 1 5).nextTokenId = initState.nextTokenId + 1 ∧
    (stakeResultState initState 1 5).mintedIds =
      initState.mintedIds ++ [initState.nextTokenId] ∧
    FHE.isInitialized
      ((stakeResultState initState 1 5).encryptedStakes initState.nextTokenId) = true ∧
    (stakeResultState initState 1 5).fhe.plainOf
      ((stakeResultState initState 1 5).encryptedStakes initState.nextTokenId) = 5 :=
  c7_stake_fresh_id_and_amount envW initState Relation.ReflTransGen.refl 1 5
    (by decide) (by decide)

/-- C9 amended: in every reachable state, tokensOf of a nonzero owner
returns (a snapshot of) exactly the owner's enumeration list: a finite,
duplicate-free list containing precisely the certificate ids currently owned
by that address.  Its order is the registry's enumeration order — insertion
order only until a removal, since a burn or transfer moves the owner's last
id into the removed id's slot (swap-and-pop) — and hence not, in general,
insertion order. -/
theorem c9_tokensOf_snapshot (env : Env) (s : State) (hreach : Reachable env s)
    (owner : Address) (howner : owner ≠ 0) :
    s.tokensOf owner = .ok (s.ownedTokens owner) ∧
    (s.ownedTokens owner).Nodup ∧
    ∀ t, t ∈ s.ownedTokens owner ↔ s.owners t = owner := by
  have hInv := inv_reachable hreach
  exact ⟨tokensOf_eq howner (hInv.balLen owner), hInv.ownedNodup owner,
    hInv.ownedMem owner howner⟩

/-- C9 counterexample: after account 1 stakes certificates 1, 2, 3 and
redeems certificate 1, its currently owned ids in insertion (mint) order are
[2, 3], but tokensOf returns [3, 2] — the burn moved the last id into the
freed slot — refuting that tokensOf returns the owned ids in insertion
order. -/
theorem c9_counterexample :
    State.tokensOf V4 1 = Except.ok [3, 2] ∧
    List.filter (fun t => V4.owners t == 1) V4.mintedIds = [2, 3] ∧
    ([3, 2] : List Nat) ≠ [2, 3] :=
  ⟨rfl, rfl, by decide⟩

theorem c9_witness :
    State.tokensOf W2 1 = Except.ok (W2.ownedTokens 1) ∧
    (W2.ownedTokens 1).Nodup ∧
    (1 ∈ W2.ownedTokens 1 ↔ W2.owners 1 = 1) := by
  have h := c9_tokensOf_snapshot envW W2 reachable_W2 1 (by decide)
  exact ⟨h.1, h.2.1, h.2.2 1⟩

/-- C10: the beneficiary stored in the Pending Withdrawal Record by a
successful redeem — and hence the recipient paid by any successful fulfill
of that request — is the certificate's owner at redeem time, not the
caller: an approved operator's redeem still routes the funds to the
owner. -/
theorem c10_beneficiary_is_owner (s : State) (caller tid : Nat) (s' : State)
    (rid : Nat) (hred : redeem s caller tid = .ok (s', rid)) :
    (s'.pendingByRequest rid).recipient = s.owners tid ∧
    (s'.pendingByRequest rid).tokenId = tid ∧
    ∀ env tOk sender ct pf s'' b a,
      onDecryptionFulfilled env tOk s' sender rid ct pf = .ok (s'', b, a) →
      b = s.owners tid := by
  obtain ⟨_, _, _, _, rfl, rfl⟩ := redeem_inv hred
  have hrec : ((redeemResultState s tid).pendingByRequest s.fhe.nextRequestId) =
      { recipient := s.owners tid, tokenId := tid, existsFlag := true } := by
    rw [redeemResultState_pendingByRequest, if_pos rfl]
  refine ⟨by rw [hrec], by rw [hrec], ?_⟩
  intro env tOk sender ct pf s'' b a hful
  obtain ⟨_, _, _, _, hb, _, _, _⟩ := fulfill_inv hful
  rw [hb, hrec]

theorem c10_witness :
    (U3.pendingByRequest 1).recipient = 1 ∧ (U3.pendingByRequest 1).tokenId = 1 := by
  have h := c10_beneficiary_is_owner U2 3 1 U3 1 rfl
  exact ⟨h.1, h.2.1⟩

/-- C8: two certificates staked with different amounts and then both
redeemed resolve independently: whatever the order of the oracle callbacks,
each fulfill pays the amount decrypted for its own requestId to the
beneficiary recorded for that requestId — the first staker's amount to the
first staker and the second's to the second, never swapped — and a callback
that tries to deliver the other request's amount fails InvalidProof. -/
theorem c8_no_swap (env : Env) (tOk : Address → Nat → Bool) (s0 : State)
    (alice bob a1 a2 tid1 tid2 rid1 rid2 : Nat) (s1 s2 s3 s4 : State)
    (sA sB : Nat)
    (henf : env.enforceOracleCheck = false)
    (htOk : ∀ x y, tOk x y = true)
    (h12 : a1 ≠ a2)
    (hstake1 : stake s0 alice a1 = .ok (s1, tid1))
    (hstake2 : stake s1 bob a2 = .ok (s2, tid2))
    (hred1 : redeem s2 alice tid1 = .ok (s3, rid1))
    (hred2 : redeem s3 bob tid2 = .ok (s4, rid2)) :
    (execFulfill env tOk s4 sA rid1 a1 (env.kmsProof rid1)).2 = .ok (alice, a1) ∧
    (execFulfill env tOk s4 sB rid2 a2 (env.kmsProof rid2)).2 = .ok (bob, a2) ∧
    (execFulfill env tOk (execFulfill env tOk s4 sA rid1 a1 (env.kmsProof rid1)).1
        sB rid2 a2 (env.kmsProof rid2)).2 = .ok (bob, a2) ∧
    (execFulfill env tOk (execFulfill env tOk s4 sB rid2 a2 (env.kmsProof rid2)).1
        sA rid1 a1 (env.kmsProof rid1)).2 = .ok (alice, a1) ∧
    (∀ ct pf s5 b am,
      onDecryptionFulfilled env tOk s4 sA rid1 ct pf = .ok (s5, b, am) →
      b = alice ∧ am = a1) ∧
    (∀ ct pf s5 b am,
      onDecryptionFulfilled env tOk s4 sB rid2 ct pf = .ok (s5, b, am) →
      b = bob ∧ am = a2) ∧
    onDecryptionFulfilled env tOk s4 sA rid1 a2 (env.kmsProof rid1) =
      .error .InvalidProof := by
  obtain ⟨hv1, hA, hoA, hs1, htid1⟩ := stake_inv hstake1
  obtain ⟨hv2, hB, hoB, hs2, htid2⟩ := stake_inv hstake2
  obtain ⟨ho1, _, _, hst1, hs3, hr1⟩ := redeem_inv hred1
  obtain ⟨ho2, _, _, hst2, hs4, hr2⟩ := redeem_inv hred2
  have hgAll : ∀ x : Nat, env.enforceOracleCheck = true → x = env.decryptionOracle := by
    intro x hx
    rw [henf] at hx
    cases hx
  have htid2' : tid2 = s0.nextTokenId + 1 := by
    rw [htid2, hs1, stakeResultState_nextTokenId]
  have hrA : rid1 = s0.fhe.nextRequestId := by
    rw [hr1, hs2, stakeResultState_fhe_nextRequestId, hs1,
      stakeResultState_fhe_nextRequestId]
  have hrB : rid2 = s0.fhe.nextRequestId + 1 := by
    rw [hr2, hs3, redeemResultState_fhe_nextRequestId, ← hr1, hrA]
  have howner1 : s2.owners tid1 = alice := by
    rw [hs2, stakeResultState_owners,
      if_neg (by rw [hs1, stakeResultState_nextTokenId]; omega), hs1,
      stakeResultState_owners, if_pos htid1]
  have howner2 : s3.owners tid2 = bob := by
    rw [hs3, redeemResultState_owners, if_neg (by omega), hs2,
      stakeResultState_owners, if_pos htid2]
  have hp1 : s4.pendingByRequest rid1 =
      { recipient := alice, tokenId := tid1, existsFlag := true } := by
    rw [hs4, redeemResultState_pendingByRequest, if_neg (by rw [← hr2]; omega),
      hs3, redeemResultState_pendingByRequest, if_pos hr1, howner1]
  have hp2 : s4.pendingByRequest rid2 =
      { recipient := bob, tokenId := tid2, existsFlag := true } := by
    rw [hs4, redeemResultState_pendingByRequest, if_pos hr2, howner2]
  have hstk1 : s2.encryptedStakes tid1 = s0.fhe.nextHandle := by
    rw [hs2, stakeResultState_encryptedStakes,
      if_neg (by rw [hs1, stakeResultState_nextTokenId]; omega), hs1,
      stakeResultState_encryptedStakes, if_pos htid1]
  have hstk2 : s3.encryptedStakes tid2 = s0.fhe.nextHandle + 1 := by
    rw [hs3, redeemResultState_encryptedStakes, if_neg (by omega), hs2,
      stakeResultState_encryptedStakes, if_pos htid2, hs1,
      stakeResultState_fhe_nextHandle]
  have hplainA : s4.fhe.plainOf s0.fhe.nextHandle = a1 := by
    rw [hs4, redeemResultState_fhe_plainOf, hs3, redeemResultState_fhe_plainOf,
      hs2, stakeResultState_fhe_plainOf,
      if_neg (by rw [hs1, stakeResultState_fhe_nextHandle]; omega), hs1,
      stakeResultState_fhe_plainOf, if_pos rfl]
  have hplainB : s4.fhe.plainOf (s0.fhe.nextHandle + 1) = a2 := by
    rw [hs4, redeemResultState_fhe_plainOf, hs3, redeemResultState_fhe_plainOf,
      hs2, stakeResultState_fhe_plainOf,
      if_pos (by rw [hs1, stakeResultState_fhe_nextHandle])]
  have hct1 : s4.fhe.requestCiphertexts rid1 = [s2.encryptedStakes tid1] := by
    rw [hs4, redeemResultState_fhe_requestCiphertexts, if_neg (by rw [← hr2]; omega),
      hs3, redeemResultState_fhe_requestCiphertexts, if_pos hr1]
  have hct2 : s4.fhe.requestCiphertexts rid2 = [s3.encryptedStakes tid2] := by
    rw [hs4, redeemResultState_fhe_requestCiphertexts, if_pos hr2]
  have hd1 : s4.fhe.decryptRequest rid1 = a1 := by
    unfold FheState.decryptRequest
    rw [hct1, hstk1]
    simp only [List.map_cons, List.map_nil, List.headD_cons]
    exact hplainA
  have hd2 : s4.fhe.decryptRequest rid2 = a2 := by
    unfold FheState.decryptRequest
    rw [hct2, hstk2]
    simp only [List.map_cons, List.map_nil, List.headD_cons]
    exact hplainB
  have hok1 : onDecryptionFulfilled env tOk s4 sA rid1 a1 (env.kmsProof rid1) =
      .ok (fulfillClearState s4 rid1 (s4.pendingByRequest rid1),
        (s4.pendingByRequest rid1).recipient, a1) :=
    fulfill_ok (hgAll sA) (by rw [hp1]) hd1.symm rfl (htOk _ _)
  have hok2 : onDecryptionFulfilled env tOk s4 sB rid2 a2 (env.kmsProof rid2) =
      .ok (fulfillClearState s4 rid2 (s4.pendingByRequest rid2),
        (s4.pendingByRequest rid2).recipient, a2) :=
    fulfill_ok (hgAll sB) (by rw [hp2]) hd2.symm rfl (htOk _ _)
  have he1 : execFulfill env tOk s4 sA rid1 a1 (env.kmsProof rid1) =
      (fulfillClearState s4 rid1 (s4.pendingByRequest rid1),
        .ok ((s4.pendingByRequest rid1).recipient, a1)) := by
    unfold execFulfill
    rw [hok1]
  have he2 : execFulfill env tOk s4 sB rid2 a2 (env.kmsProof rid2) =
      (fulfillClearState s4 rid2 (s4.pendingByRequest rid2),
        .ok ((s4.pendingByRequest rid2).recipient, a2)) := by
    unfold execFulfill
    rw [hok2]
  -- fulfilling one request leaves the other request's record and the FHE
  -- environment untouched
  have hp2' : (fulfillClearState s4 rid1 (s4.pendingByRequest rid1)).pendingByRequest
      rid2 = { recipient := bob, tokenId := tid2, existsFlag := true } := by
    rw [fulfillClearState_pendingByRequest, if_neg (by omega)]
    exact hp2
  have hp1' : (fulfillClearState s4 rid2 (s4.pendingByRequest rid2)).pendingByRequest
      rid1 = { recipient := alice, tokenId := tid1, existsFlag := true } := by
    rw [fulfillClearState_pendingByRequest, if_neg (by omega)]
    exact hp1
  have hok2' : onDecryptionFulfilled env tOk
      (fulfillClearState s4 rid1 (s4.pendingByRequest rid1)) sB rid2 a2
      (env.kmsProof rid2) =
      .ok (fulfillClearState (fulfillClearState s4 rid1 (s4.pendingByRequest rid1))
        rid2 ((fulfillClearState s4 rid1 (s4.pendingByRequest rid1)).pendingByRequest
          rid2),
        ((fulfillClearState s4 rid1 (s4.pendingByRequest rid1)).pendingByRequest
          rid2).recipient, a2) :=
    fulfill_ok (hgAll sB) (by rw [hp2']) (by rw [fulfillClearState_fhe]; exact hd2.symm)
      rfl (htOk _ _)
  have hok1' : onDecryptionFulfilled env tOk
      (fulfillClearState s4 rid2 (s4.pendingByRequest rid2)) sA rid1 a1
      (env.kmsProof rid1) =
      .ok (fulfillClearState (fulfillClearState s4 rid2 (s4.pendingByRequest rid2))
        rid1 ((fulfillClearState s4 rid2 (s4.pendingByRequest rid2)).pendingByRequest
          rid1),
        ((fulfillClearState s4 rid2 (s4.pendingByRequest rid2)).pendingByRequest
          rid1).recipient, a1) :=
    fulfill_ok (hgAll sA) (by rw [hp1']) (by rw [fulfillClearState_fhe]; exact hd1.symm)
      rfl (htOk _ _)
  refine ⟨?_, ?_, ?_, ?_, ?_, ?_, ?_⟩
  · rw [he1, hp1]
  · rw [he2, hp2]
  · rw [he1]
    show (execFulfill env tOk (fulfillClearState s4 rid1 (s4.pendingByRequest rid1))
      sB rid2 a2 (env.kmsProof rid2)).2 = .ok (bob, a2)
    unfold execFulfill
    rw [hok2', hp2']
  · rw [he2]
    show (execFulfill env tOk (fulfillClearState s4 rid2 (s4.pendingByRequest rid2))
      sA rid1 a1 (env.kmsProof rid1)).2 = .ok (alice, a1)
    unfold execFulfill
    rw [hok1', hp1']
  · intro ct pf s5 b am h
    obtain ⟨_, _, hcteq, _, hb, ham, _, _⟩ := fulfill_inv h
    exact ⟨by rw [hb, hp1], by rw [ham, hcteq, hd1]⟩
  · intro ct pf s5 b am h
    obtain ⟨_, _, hcteq, _, hb, ham, _, _⟩ := fulfill_inv h
    exact ⟨by rw [hb, hp2], by rw [ham, hcteq, hd2]⟩
  · refine fulfill_invalidProof (hgAll sA) (by rw [hp1]) ?_
    unfold FHE.checkSignatures
    rw [hd1]
    have hbeq : (a2 == a1) = false := by
      simp only [beq_eq_false_iff_ne, ne_eq]
      omega
    rw [hbeq, Bool.false_and]

theorem c8_witness :
    (execFulfill envW tOkW W4 9 1 5 0).2 = Except.ok (1, 5) ∧
    (execFulfill envW tOkW W4 9 2 7 0).2 = Except.ok (2, 7) ∧
    (execFulfill envW tOkW (execFulfill envW tOkW W4 9 1 5 0).1 9 2 7 0).2 =
      Except.ok (2, 7) ∧
    (execFulfill envW tOkW (execFulfill envW tOkW W4 9 2 7 0).1 9 1 5 0).2 =
      Except.ok (1, 5) ∧
    onDecryptionFulfilled envW tOkW W4 9 1 7 0 = Except.error Err.InvalidProof := by
  have h := c8_no_swap envW tOkW initState 1 2 5 7 1 2 1 2 W1 W2 W3 W4 9 9 rfl
    (fun _ _ => rfl) (by decide) rfl rfl rfl rfl
  exact ⟨h.1, h.2.1, h.2.2.1, h.2.2.2.1, h.2.2.2.2.2.2⟩

end Vaultborn
